import Mathlib

/-!
Shallow embedding of the gosql lexer (src/lexer.go, the complete first file:
types `Location`, `Token`, `cursor`, the sub-lexers `lexNumeric`,
`lexCharacterDelimited`, `lexString`, `longestMatch`, `lexSymbol`,
`lexKeyword`, `lexIdentifier`, and the orchestrator `lex`).

Conventions of the embedding:
- Go strings are modelled as `List Char`; the lexer only inspects bytes, and
  all inputs of interest are ASCII, where byte indexing and `List Char`
  indexing agree.  `strings.ToLower` on ASCII agrees with `Char.toLower`.
- Go's unsigned ints become `Nat`.
- A Go index expression `source[cur.pointer]` panics when out of range; the
  orchestrator only calls the sub-lexers with `pointer < len source`, and the
  embedding returns the no-match result on the out-of-range case instead.
- Each loop is translated into structural recursion over the still-unread
  suffix `source.drop cur.pointer`, threading the cursor exactly as the Go
  loop updates it (including its quirks: the numeric loop increments the
  column before deciding to break, and the delimited loop returns with the
  cursor still on the closing delimiter).
- `fmt.Errorf("Unable to lex token%s, at %d:%d", hint, line, col)` is
  modelled as a `LexError` structure carrying the line, the column, and the
  optional preceding-token text used to build `hint`.
-/

namespace GoSql

structure Location where
  line : Nat
  col : Nat
  deriving DecidableEq, Repr

structure Cursor where
  pointer : Nat
  loc : Location
  deriving DecidableEq, Repr

inductive TokenKind where
  | KeywordKind
  | SymbolKind
  | IdentifierKind
  | StringKind
  | NumericKind
  deriving DecidableEq, Repr

structure Token where
  value : List Char
  kind : TokenKind
  loc : Location
  deriving DecidableEq, Repr

def SelectKeyword : List Char := "select".toList
def FromKeyword : List Char := "from".toList
def AsKeyword : List Char := "as".toList
def TableKeyword : List Char := "table".toList
def CreateKeyword : List Char := "create".toList
def InsertKeyword : List Char := "insert".toList
def IntoKeyword : List Char := "into".toList
def ValuesKeyword : List Char := "values".toList
def IntKeyword : List Char := "int".toList
def TextKeyword : List Char := "text".toList
def WhereKeyword : List Char := "where".toList

def SemiColonSymbol : List Char := ";".toList
def AsteriskSymbol : List Char := "*".toList
def CommaSymbol : List Char := ",".toList
def LeftparenSymbol : List Char := "(".toList
def RightparenSymbol : List Char := ")".toList

/-- The option list built by `lexSymbol` from its local `symbols` slice. -/
def symbolOptions : List (List Char) :=
  [SemiColonSymbol, AsteriskSymbol, CommaSymbol, LeftparenSymbol, RightparenSymbol]

/-- The option list built by `lexKeyword` from its local `keywords` slice.
The Go slice lists exactly these ten keywords; the declared `AsKeyword`
constant is absent from it. -/
def keywordOptions : List (List Char) :=
  [SelectKeyword, InsertKeyword, ValuesKeyword, TableKeyword, CreateKeyword,
   WhereKeyword, FromKeyword, IntoKeyword, TextKeyword, IntKeyword]

/-- The inner `for i, option := range options` loop of `longestMatch`,
processing the enumerated options with the accumulated comparison buffer
`value`.  Go's `option[:cur.pointer-ic.pointer]` (the slice length equals
`value.length`) is rendered as `option.take value.length`; for an empty
option the Go slice expression would panic, which the orchestrator's option
lists never trigger.  `tooLong` is Go's `len(value) > len(options)`, the
comparison against the option-set size kept exactly as written. -/
def lmInner (value : List Char) (numOptions : Nat) :
    List (Nat × List Char) → List Nat → List Char → List Nat × List Char
  | [], skipList, best => (skipList, best)
  | (i, option) :: ros, skipList, best =>
    if skipList.contains i then
      lmInner value numOptions ros skipList best
    else if option = value then
      lmInner value numOptions ros (skipList ++ [i])
        (if best.length < option.length then option else best)
    else if numOptions < value.length ∨ ¬ value = option.take value.length then
      lmInner value numOptions ros (skipList ++ [i]) best
    else
      lmInner value numOptions ros skipList best

/-- The outer scanning loop of `longestMatch`: extend `value` with the
lower-cased next source character, run the option pass, and stop when the
source is exhausted or every option is in the skip list. -/
def lmLoop (options : List (List Char)) :
    List Char → List Char → List Nat → List Char → List Char
  | [], _, _, best => best
  | c :: rest, value, skipList, best =>
    let value2 := value ++ [c.toLower]
    let res := lmInner value2 options.length options.enum skipList best
    if res.1.length = options.length then res.2
    else lmLoop options rest value2 res.1 res.2

def longestMatch (source : List Char) (ic : Cursor) (options : List (List Char)) :
    List Char :=
  lmLoop options (source.drop ic.pointer) [] [] []

/-- Post-loop code of `lexNumeric`: reject a zero-length run, otherwise
produce the Numeric token for `source[ic.pointer:cur.pointer]`. -/
def lexNumericFinish (source : List Char) (ic : Cursor) (cur : Cursor) :
    Option Token × Cursor × Bool :=
  if cur.pointer = ic.pointer then (none, ic, false)
  else
    (some { value := (source.drop ic.pointer).take (cur.pointer - ic.pointer),
            kind := TokenKind.NumericKind, loc := ic.loc }, cur, true)

/-- The scanning loop of `lexNumeric` over the unread suffix.  The column is
incremented at the top of each iteration, before any branch, exactly as in
the Go loop; on `break` the incremented column is kept although the pointer
is not advanced.  The flag update `periodFound = isPeriod` happens only on
the first iteration: the non-first period branch leaves `periodFound`
unchanged, exactly as the Go code does. -/
def lexNumericLoop (source : List Char) (ic : Cursor) :
    List Char → Cursor → Bool → Bool → Option Token × Cursor × Bool
  | [], cur, _, _ => lexNumericFinish source ic cur
  | c :: rest, cur, periodFound, expMarkerFound =>
    let curc : Cursor := { cur with loc := { cur.loc with col := cur.loc.col + 1 } }
    let isDigit := '0' ≤ c ∧ c ≤ '9'
    let isPeriod := c = '.'
    let isExpMarker := c = 'e'
    if cur.pointer = ic.pointer then
      if ¬ isDigit ∧ ¬ isPeriod then (none, ic, false)
      else lexNumericLoop source ic rest { curc with pointer := curc.pointer + 1 }
        isPeriod expMarkerFound
    else if isPeriod then
      if periodFound then (none, ic, false)
      else lexNumericLoop source ic rest { curc with pointer := curc.pointer + 1 }
        periodFound expMarkerFound
    else if isExpMarker then
      if expMarkerFound then (none, ic, false)
      else
        match rest with
        | [] => (none, ic, false)
        | cNext :: rest2 =>
          if cNext = '-' ∨ cNext = '+' then
            lexNumericLoop source ic rest2
              { pointer := curc.pointer + 2,
                loc := { curc.loc with col := curc.loc.col + 1 } } true true
          else
            lexNumericLoop source ic (cNext :: rest2)
              { curc with pointer := curc.pointer + 1 } true true
    else if ¬ isDigit then lexNumericFinish source ic curc
    else lexNumericLoop source ic rest { curc with pointer := curc.pointer + 1 }
      periodFound expMarkerFound

def lexNumeric (source : List Char) (ic : Cursor) : Option Token × Cursor × Bool :=
  lexNumericLoop source ic (source.drop ic.pointer) ic false false

/-- The scanning loop of `lexCharacterDelimited` over the suffix after the
opening delimiter.  On an undoubled delimiter the token is returned with the
cursor still at that delimiter, exactly as the Go code returns `cur` without
advancing it; on a doubled delimiter the value receives the delimiter from
the escape branch and then the current character again from the shared
append below the branch. -/
def lexCharacterDelimitedLoop (source : List Char) (ic : Cursor) (delimiter : Char) :
    List Char → Cursor → List Char → Option Token × Cursor × Bool
  | [], _, _ => (none, ic, false)
  | c :: rest, cur, value =>
    if c = delimiter then
      match rest with
      | [] =>
        (some { value := value, kind := TokenKind.StringKind, loc := ic.loc }, cur, true)
      | cNext :: rest2 =>
        if ¬ cNext = delimiter then
          (some { value := value, kind := TokenKind.StringKind, loc := ic.loc }, cur, true)
        else
          lexCharacterDelimitedLoop source ic delimiter rest2
            { pointer := cur.pointer + 2, loc := { cur.loc with col := cur.loc.col + 2 } }
            (value ++ [delimiter] ++ [c])
    else
      lexCharacterDelimitedLoop source ic delimiter rest
        { pointer := cur.pointer + 1, loc := { cur.loc with col := cur.loc.col + 1 } }
        (value ++ [c])

def lexCharacterDelimited (source : List Char) (ic : Cursor) (delimiter : Char) :
    Option Token × Cursor × Bool :=
  match source.drop ic.pointer with
  | [] => (none, ic, false)
  | c :: rest =>
    if ¬ c = delimiter then (none, ic, false)
    else
      lexCharacterDelimitedLoop source ic delimiter rest
        { pointer := ic.pointer + 1, loc := { ic.loc with col := ic.loc.col + 1 } } []

def lexString (source : List Char) (ic : Cursor) : Option Token × Cursor × Bool :=
  lexCharacterDelimited source ic '\''

def lexSymbol (source : List Char) (ic : Cursor) : Option Token × Cursor × Bool :=
  match source.drop ic.pointer with
  | [] => (none, ic, false)
  | c :: _ =>
    let cur : Cursor :=
      { pointer := ic.pointer + 1, loc := { ic.loc with col := ic.loc.col + 1 } }
    if c = '\n' then
      (none, { cur with loc := { line := ic.loc.line + 1, col := 0 } }, true)
    else if c = '\t' ∨ c = ' ' then (none, cur, true)
    else
      let m := longestMatch source ic symbolOptions
      if m = [] then (none, ic, false)
      else
        (some { value := m, kind := TokenKind.SymbolKind, loc := ic.loc },
         { pointer := ic.pointer + m.length,
           loc := { ic.loc with col := ic.loc.col + m.length } }, true)

def lexKeyword (source : List Char) (ic : Cursor) : Option Token × Cursor × Bool :=
  let m := longestMatch source ic keywordOptions
  if m = [] then (none, ic, false)
  else
    (some { value := m, kind := TokenKind.KeywordKind, loc := ic.loc },
     { pointer := ic.pointer + m.length,
       loc := { ic.loc with col := ic.loc.col + m.length } }, true)

/-- The bare-identifier loop of `lexIdentifier`: accept ASCII letters,
digits, `$` and `_`, incrementing the column per accepted character. -/
def lexIdentifierLoop (source : List Char) (ic : Cursor) :
    List Char → Cursor → List Char → Option Token × Cursor × Bool
  | [], cur, value =>
    if value = [] then (none, ic, false)
    else
      (some { value := value.map Char.toLower, kind := TokenKind.IdentifierKind,
              loc := ic.loc }, cur, true)
  | c :: rest, cur, value =>
    let isAlpha := ('A' ≤ c ∧ c ≤ 'Z') ∨ ('a' ≤ c ∧ c ≤ 'z')
    let isNumeric := '0' ≤ c ∧ c ≤ '9'
    if isAlpha ∨ isNumeric ∨ c = '$' ∨ c = '_' then
      lexIdentifierLoop source ic rest
        { pointer := cur.pointer + 1, loc := { cur.loc with col := cur.loc.col + 1 } }
        (value ++ [c])
    else if value = [] then (none, ic, false)
    else
      (some { value := value.map Char.toLower, kind := TokenKind.IdentifierKind,
              loc := ic.loc }, cur, true)

def lexIdentifier (source : List Char) (ic : Cursor) : Option Token × Cursor × Bool :=
  let del := lexCharacterDelimited source ic '"'
  if del.2.2 then del
  else
    match source.drop ic.pointer with
    | [] => (none, ic, false)
    | c :: rest =>
      let isAlpha := ('A' ≤ c ∧ c ≤ 'Z') ∨ ('a' ≤ c ∧ c ≤ 'z')
      if ¬ isAlpha then (none, ic, false)
      else
        lexIdentifierLoop source ic rest
          { pointer := ic.pointer + 1, loc := { ic.loc with col := ic.loc.col + 1 } }
          [c]

structure LexError where
  line : Nat
  col : Nat
  hint : Option (List Char)
  deriving DecidableEq, Repr

inductive LexResult where
  | ok (tokens : List Token)
  | err (e : LexError)
  deriving DecidableEq, Repr

def appendToken (tokens : List Token) : Option Token → List Token
  | some t => tokens ++ [t]
  | none => tokens

/-- One `lex` loop iteration per unit of fuel.  Each successful sub-lexer
strictly advances the pointer, so `source.length + 1` units of fuel always
reach the Go loop's own exit; the fuel-zero fallback mirrors the failure
result and is never reached from `lex`. -/
def lexLoop (source : List Char) : Nat → Cursor → List Token → LexResult
  | 0, cur, tokens =>
    if cur.pointer < source.length then
      LexResult.err { line := cur.loc.line, col := cur.loc.col,
                      hint := (tokens.getLast?).map Token.value }
    else LexResult.ok tokens
  | fuel + 1, cur, tokens =>
    if cur.pointer < source.length then
      match lexKeyword source cur with
      | (t, nc, true) => lexLoop source fuel nc (appendToken tokens t)
      | _ =>
        match lexSymbol source cur with
        | (t, nc, true) => lexLoop source fuel nc (appendToken tokens t)
        | _ =>
          match lexNumeric source cur with
          | (t, nc, true) => lexLoop source fuel nc (appendToken tokens t)
          | _ =>
            match lexString source cur with
            | (t, nc, true) => lexLoop source fuel nc (appendToken tokens t)
            | _ =>
              match lexIdentifier source cur with
              | (t, nc, true) => lexLoop source fuel nc (appendToken tokens t)
              | _ =>
                LexResult.err { line := cur.loc.line, col := cur.loc.col,
                                hint := (tokens.getLast?).map Token.value }
    else LexResult.ok tokens

def lex (source : List Char) : LexResult :=
  lexLoop source (source.length + 1) { pointer := 0, loc := { line := 0, col := 0 } } []

end GoSql

namespace GoSql

/-- C1: the claim says a candidate numeral with two decimal points is
rejected by the numeric sub-lexer, so that `1.2.3` never lexes as one
Numeric token.  The code disagrees: the non-first-period branch never sets
`periodFound` (contradicting its own comment), so `lexNumeric` accepts the
whole run and `lex` yields exactly one Numeric token `1.2.3`. -/
theorem c1_double_period_accepted :
    lexNumeric ("1.2.3".toList) { pointer := 0, loc := { line := 0, col := 0 } } =
      (some { value := "1.2.3".toList, kind := TokenKind.NumericKind,
              loc := { line := 0, col := 0 } },
       { pointer := 5, loc := { line := 0, col := 5 } }, true) ∧
    lex ("1.2.3".toList) =
      LexResult.ok [{ value := "1.2.3".toList, kind := TokenKind.NumericKind,
                      loc := { line := 0, col := 0 } }] := by
  constructor <;> decide

/-- C2: the claim says `'ab''c'` lexes as one String token `ab'c`.  The code
disagrees twice: the doubled-delimiter branch appends the delimiter and then
the shared append adds the same character again (value `ab''c`), and the
closing delimiter is never consumed, so the orchestrator gets stuck on it
and `lex` fails at line 0, column 6 after the String token text `ab''c`. -/
theorem c2_double_quote_escape_broken :
    lex ("'ab''c'".toList) =
      LexResult.err { line := 0, col := 6, hint := some ("ab''c".toList) } := by
  decide

/-- C3: the claim says `"My Table"` lexes as one Identifier token with value
`my table`.  The code disagrees: `lexCharacterDelimited` stamps the token
with kind String and case preserved, and it never consumes the closing
quote, so the orchestrator gets stuck on the closing quote and `lex` fails
at line 0, column 9 after the token text `My Table`. -/
theorem c3_quoted_identifier_fails :
    lex ("\"My Table\"".toList) =
      LexResult.err { line := 0, col := 9, hint := some ("My Table".toList) } := by
  decide

/-- C4: the claim says `as` lexes as a Keyword token.  The code disagrees:
`lexKeyword` builds its option list without the declared `AsKeyword`
constant, so `as` falls through to the identifier sub-lexer and lexes as one
Identifier token. -/
theorem c4_as_lexes_as_identifier :
    AsKeyword ∉ keywordOptions ∧
    lex ("as".toList) =
      LexResult.ok [{ value := "as".toList, kind := TokenKind.IdentifierKind,
                      loc := { line := 0, col := 0 } }] := by
  constructor <;> decide

/-- C6: keyword recognition is case-insensitive and precedes identifier
recognition: `select`, `Select` and `SELECT` each lex to exactly one Keyword
token with value `select`. -/
theorem c6_keyword_case_insensitive :
    lex ("select".toList) =
      LexResult.ok [{ value := "select".toList, kind := TokenKind.KeywordKind,
                      loc := { line := 0, col := 0 } }] ∧
    lex ("Select".toList) =
      LexResult.ok [{ value := "select".toList, kind := TokenKind.KeywordKind,
                      loc := { line := 0, col := 0 } }] ∧
    lex ("SELECT".toList) =
      LexResult.ok [{ value := "select".toList, kind := TokenKind.KeywordKind,
                      loc := { line := 0, col := 0 } }] := by
  refine ⟨by decide, by decide, by decide⟩

/-- C7: an unterminated delimited literal is never accepted: `'abc` makes
`lex` fail with the stuck position's line and column and no token sequence,
and with earlier tokens present the error also carries the last produced
token's text (shown on `select 'abc`). -/
theorem c7_unterminated_literal_error :
    lex ("'abc".toList) = LexResult.err { line := 0, col := 0, hint := none } ∧
    lex ("select 'abc".toList) =
      LexResult.err { line := 0, col := 7, hint := some ("select".toList) } := by
  constructor <;> decide

/-- C10: keyword matching applies no word-boundary check: `selected` lexes
as the Keyword token `select` followed by the Identifier token `ed`. -/
theorem c10_no_word_boundary :
    lex ("selected".toList) =
      LexResult.ok
        [{ value := "select".toList, kind := TokenKind.KeywordKind,
           loc := { line := 0, col := 0 } },
         { value := "ed".toList, kind := TokenKind.IdentifierKind,
           loc := { line := 0, col := 6 } }] := by
  decide

end GoSql

namespace GoSql

lemma lexNumericFinish_no_match (source : List Char) (ic cur : Cursor)
    (h : (lexNumericFinish source ic cur).2.2 = false) :
    lexNumericFinish source ic cur = (none, ic, false) := by
  unfold lexNumericFinish at h ⊢
  split at h <;> simp_all

lemma lexNumericLoop_no_match (source : List Char) (ic : Cursor)
    (rest : List Char) (cur : Cursor) (p e : Bool) :
    (lexNumericLoop source ic rest cur p e).2.2 = false →
    lexNumericLoop source ic rest cur p e = (none, ic, false) := by
  induction rest, cur, p, e using lexNumericLoop.induct source ic with
  | case1 cur p e => exact fun h => lexNumericFinish_no_match source ic cur h
  | _ =>
    intro h
    rw [lexNumericLoop.eq_def] at h ⊢
    simp_all only [decide_eq_true_eq, ite_true, ite_false, decide_True, decide_False,
      not_true_eq_false, not_false_eq_true]
    all_goals
      split_ifs at h ⊢ <;>
        first
          | exact lexNumericFinish_no_match source ic _ h
          | simp_all +zetaDelta

end GoSql

namespace GoSql

lemma lexCharacterDelimitedLoop_no_match (source : List Char) (ic : Cursor)
    (delimiter : Char) (rest : List Char) (cur : Cursor) (value : List Char) :
    (lexCharacterDelimitedLoop source ic delimiter rest cur value).2.2 = false →
    lexCharacterDelimitedLoop source ic delimiter rest cur value = (none, ic, false) := by
  induction rest, cur, value using lexCharacterDelimitedLoop.induct source ic delimiter with
  | _ =>
    intro h
    rw [lexCharacterDelimitedLoop.eq_def] at h ⊢
    all_goals simp_all only [decide_eq_true_eq, ite_true, ite_false, decide_True,
      decide_False, not_true_eq_false, not_false_eq_true]
    all_goals first
      | simp_all
      | (split_ifs at h ⊢ <;> simp_all +zetaDelta)

lemma lexIdentifierLoop_no_match (source : List Char) (ic : Cursor)
    (rest : List Char) (cur : Cursor) (value : List Char) :
    (lexIdentifierLoop source ic rest cur value).2.2 = false →
    lexIdentifierLoop source ic rest cur value = (none, ic, false) := by
  induction rest, cur, value using lexIdentifierLoop.induct source ic with
  | _ =>
    intro h
    rw [lexIdentifierLoop.eq_def] at h ⊢
    all_goals simp_all only [decide_eq_true_eq, ite_true, ite_false, decide_True,
      decide_False, not_true_eq_false, not_false_eq_true]
    all_goals first
      | simp_all
      | (split_ifs at h ⊢ <;> simp_all +zetaDelta)

lemma lexKeyword_no_match (source : List Char) (cur : Cursor)
    (h : (lexKeyword source cur).2.2 = false) :
    lexKeyword source cur = (none, cur, false) := by
  simp only [lexKeyword] at h ⊢
  split_ifs at h ⊢ <;> simp_all

lemma lexSymbol_no_match (source : List Char) (cur : Cursor)
    (h : (lexSymbol source cur).2.2 = false) :
    lexSymbol source cur = (none, cur, false) := by
  unfold lexSymbol at h ⊢
  cases hd : source.drop cur.pointer with
  | nil => rfl
  | cons c rest =>
    dsimp only at h ⊢
    split_ifs at h ⊢ <;> simp_all

lemma lexNumeric_no_match (source : List Char) (cur : Cursor)
    (h : (lexNumeric source cur).2.2 = false) :
    lexNumeric source cur = (none, cur, false) := by
  unfold lexNumeric at h ⊢
  exact lexNumericLoop_no_match source cur _ _ _ _ h

lemma lexCharacterDelimited_no_match (source : List Char) (cur : Cursor)
    (delimiter : Char) (h : (lexCharacterDelimited source cur delimiter).2.2 = false) :
    lexCharacterDelimited source cur delimiter = (none, cur, false) := by
  unfold lexCharacterDelimited at h ⊢
  cases hd : source.drop cur.pointer with
  | nil => rfl
  | cons c rest =>
    rw [hd] at h
    dsimp only at h ⊢
    split_ifs at h ⊢ <;>
      first
        | rfl
        | exact lexCharacterDelimitedLoop_no_match source cur delimiter _ _ _ h

lemma lexString_no_match (source : List Char) (cur : Cursor)
    (h : (lexString source cur).2.2 = false) :
    lexString source cur = (none, cur, false) := by
  unfold lexString at h ⊢
  exact lexCharacterDelimited_no_match source cur _ h

lemma lexIdentifier_no_match (source : List Char) (cur : Cursor)
    (h : (lexIdentifier source cur).2.2 = false) :
    lexIdentifier source cur = (none, cur, false) := by
  unfold lexIdentifier at h ⊢
  by_cases hdel : (lexCharacterDelimited source cur '"').2.2
  · simp only [hdel, if_true] at h ⊢
    simp_all
  · simp only [hdel, if_false, Bool.false_eq_true] at h ⊢
    cases hd : source.drop cur.pointer with
    | nil => rfl
    | cons c rest =>
      rw [hd] at h
      dsimp only at h ⊢
      split_ifs at h ⊢ <;>
        first
          | rfl
          | exact lexIdentifierLoop_no_match source cur _ _ _ h

end GoSql

namespace GoSql

/-- C8: every sub-lexer that reports no match (boolean result `false`)
returns the input cursor unchanged and produces no token, including when a
structural violation occurs after it has started matching. -/
theorem c8_no_match_cursor_unchanged (source : List Char) (cur : Cursor) :
    ((lexKeyword source cur).2.2 = false → lexKeyword source cur = (none, cur, false)) ∧
    ((lexSymbol source cur).2.2 = false → lexSymbol source cur = (none, cur, false)) ∧
    ((lexNumeric source cur).2.2 = false → lexNumeric source cur = (none, cur, false)) ∧
    ((lexString source cur).2.2 = false → lexString source cur = (none, cur, false)) ∧
    ((lexIdentifier source cur).2.2 = false → lexIdentifier source cur = (none, cur, false)) :=
  ⟨lexKeyword_no_match source cur, lexSymbol_no_match source cur,
   lexNumeric_no_match source cur, lexString_no_match source cur,
   lexIdentifier_no_match source cur⟩

/-- Witness for C8 at the one-character source `?`, on which every sub-lexer
reports no match: each returns the unchanged start cursor and no token.
The numeric case is also hit after a started match on `1.2.3e`. -/
theorem c8_no_match_cursor_unchanged_witness :
    (lexKeyword ("?".toList) { pointer := 0, loc := { line := 0, col := 0 } } =
      (none, { pointer := 0, loc := { line := 0, col := 0 } }, false)) ∧
    (lexSymbol ("?".toList) { pointer := 0, loc := { line := 0, col := 0 } } =
      (none, { pointer := 0, loc := { line := 0, col := 0 } }, false)) ∧
    (lexNumeric ("?".toList) { pointer := 0, loc := { line := 0, col := 0 } } =
      (none, { pointer := 0, loc := { line := 0, col := 0 } }, false)) ∧
    (lexString ("?".toList) { pointer := 0, loc := { line := 0, col := 0 } } =
      (none, { pointer := 0, loc := { line := 0, col := 0 } }, false)) ∧
    (lexIdentifier ("?".toList) { pointer := 0, loc := { line := 0, col := 0 } } =
      (none, { pointer := 0, loc := { line := 0, col := 0 } }, false)) ∧
    (lexNumeric ("1.2.3e".toList) { pointer := 0, loc := { line := 0, col := 0 } } =
      (none, { pointer := 0, loc := { line := 0, col := 0 } }, false)) :=
  ⟨(c8_no_match_cursor_unchanged _ _).1 (by decide),
   (c8_no_match_cursor_unchanged _ _).2.1 (by decide),
   (c8_no_match_cursor_unchanged _ _).2.2.1 (by decide),
   (c8_no_match_cursor_unchanged _ _).2.2.2.1 (by decide),
   (c8_no_match_cursor_unchanged _ _).2.2.2.2 (by decide),
   (c8_no_match_cursor_unchanged _ _).2.2.1 (by decide)⟩

end GoSql

namespace GoSql

def LocLe (a b : Location) : Prop :=
  a.line < b.line ∨ (a.line = b.line ∧ a.col ≤ b.col)

instance (a b : Location) : Decidable (LocLe a b) :=
  inferInstanceAs (Decidable (_ ∨ _))

lemma LocLe.trans {a b c : Location} (h1 : LocLe a b) (h2 : LocLe b c) : LocLe a c := by
  rcases h1 with h1 | ⟨h1, h1c⟩ <;> rcases h2 with h2 | ⟨h2, h2c⟩ <;>
    first | (left; omega) | (right; constructor <;> omega)

lemma lexNumericFinish_ok (source : List Char) (ic cur : Cursor) (t : Option Token)
    (nc : Cursor) (h : lexNumericFinish source ic cur = (t, nc, true)) :
    (∀ tok, t = some tok → tok.loc = ic.loc) ∧ nc = cur := by
  unfold lexNumericFinish at h
  split at h
  · simp at h
  · rw [Prod.mk.injEq, Prod.mk.injEq] at h
    obtain ⟨ht, hnc, -⟩ := h
    refine ⟨fun tok htok => ?_, hnc.symm⟩
    rw [← ht] at htok
    cases htok
    rfl

lemma lexNumericLoop_ok (source : List Char) (ic : Cursor) :
    ∀ (rest : List Char) (cur : Cursor) (p e : Bool) (t : Option Token) (nc : Cursor),
      lexNumericLoop source ic rest cur p e = (t, nc, true) →
      (∀ tok, t = some tok → tok.loc = ic.loc) ∧
        nc.loc.line = cur.loc.line ∧ cur.loc.col ≤ nc.loc.col := by
  intro rest cur p e
  induction rest, cur, p, e using lexNumericLoop.induct source ic with
  | case1 cur p e =>
    intro t nc h
    rw [lexNumericLoop.eq_def] at h
    obtain ⟨ha, hb⟩ := lexNumericFinish_ok source ic cur t nc h
    refine ⟨ha, ?_, ?_⟩ <;> rw [hb]
  | case2 c rest cur p e dD dP hptr hcond =>
    intro t nc h
    rw [lexNumericLoop.eq_def] at h
    dsimp only at h
    split_ifs at h <;> simp_all +zetaDelta
  | case3 c rest cur p e curc dD dP hptr hcond ih =>
    intro t nc h
    rw [lexNumericLoop.eq_def] at h
    dsimp only at h
    split_ifs at h
    all_goals first
      | (obtain ⟨ha, hl, hc⟩ := ih _ _ h
         refine ⟨ha, ?_, ?_⟩ <;> (try dsimp only at hl hc ⊢) <;> omega)
      | simp_all +zetaDelta
  | case4 c rest cur e dP hptr hper =>
    intro t nc h
    rw [lexNumericLoop.eq_def] at h
    dsimp only at h
    split_ifs at h <;> simp_all +zetaDelta
  | case5 c rest cur p e curc dP hptr hper hnp ih =>
    intro t nc h
    rw [lexNumericLoop.eq_def] at h
    dsimp only at h
    split_ifs at h
    all_goals first
      | (obtain ⟨ha, hl, hc⟩ := ih _ _ h
         refine ⟨ha, ?_, ?_⟩ <;> (try dsimp only at hl hc ⊢) <;> omega)
      | simp_all +zetaDelta
  | case6 c rest cur p dP dE hptr hnp hexp =>
    intro t nc h
    rw [lexNumericLoop.eq_def] at h
    dsimp only at h
    split_ifs at h <;> simp_all +zetaDelta
  | case7 c cur p e dP dE hptr hnp hexp hnef =>
    intro t nc h
    rw [lexNumericLoop.eq_def] at h
    dsimp only at h
    split_ifs at h <;> simp_all +zetaDelta
  | case8 c cur p e curc dP dE hptr hnp hexp hne cNext rest2 hsign ih =>
    intro t nc h
    rw [lexNumericLoop.eq_def] at h
    dsimp only at h
    split_ifs at h
    all_goals first
      | (obtain ⟨ha, hl, hc⟩ := ih _ _ h
         refine ⟨ha, ?_, ?_⟩ <;> (try dsimp only at hl hc ⊢) <;> omega)
      | simp_all +zetaDelta
  | case9 c cur p e curc dP dE hptr hnp hexp hne cNext rest2 hsign ih =>
    intro t nc h
    rw [lexNumericLoop.eq_def] at h
    dsimp only at h
    split_ifs at h
    all_goals first
      | (obtain ⟨ha, hl, hc⟩ := ih _ _ h
         refine ⟨ha, ?_, ?_⟩ <;> (try dsimp only at hl hc ⊢) <;> omega)
      | simp_all +zetaDelta
  | case10 c rest cur p e dD dP dE hptr hnp hne hnd =>
    intro t nc h
    rw [lexNumericLoop.eq_def] at h
    dsimp only at h
    split_ifs at h
    all_goals first
      | (obtain ⟨ha, hb⟩ := lexNumericFinish_ok source ic _ t nc h
         refine ⟨ha, ?_, ?_⟩ <;> rw [hb] <;> (try dsimp only) <;> omega)
      | simp_all +zetaDelta
  | case11 c rest cur p e curc dD dP dE hptr hnp hne hnnd ih =>
    intro t nc h
    rw [lexNumericLoop.eq_def] at h
    dsimp only at h
    split_ifs at h
    all_goals first
      | (obtain ⟨ha, hl, hc⟩ := ih _ _ h
         refine ⟨ha, ?_, ?_⟩ <;> (try dsimp only at hl hc ⊢) <;> omega)
      | simp_all +zetaDelta

end GoSql

namespace GoSql

lemma lexNumeric_ok (source : List Char) (cur : Cursor) (t : Option Token) (nc : Cursor)
    (h : lexNumeric source cur = (t, nc, true)) :
    (∀ tok, t = some tok → tok.loc = cur.loc) ∧ LocLe cur.loc nc.loc := by
  unfold lexNumeric at h
  obtain ⟨ha, hl, hc⟩ := lexNumericLoop_ok source cur _ _ _ _ _ _ h
  exact ⟨ha, Or.inr ⟨hl.symm, hc⟩⟩

lemma lexCharacterDelimitedLoop_ok (source : List Char) (ic : Cursor) (delimiter : Char) :
    ∀ (rest : List Char) (cur : Cursor) (value : List Char) (t : Option Token) (nc : Cursor),
      lexCharacterDelimitedLoop source ic delimiter rest cur value = (t, nc, true) →
      (∀ tok, t = some tok → tok.loc = ic.loc) ∧
        nc.loc.line = cur.loc.line ∧ cur.loc.col ≤ nc.loc.col := by
  intro rest cur value
  induction rest, cur, value using lexCharacterDelimitedLoop.induct source ic delimiter with
  | _ =>
    intro t nc h
    rw [lexCharacterDelimitedLoop.eq_def] at h
    try dsimp only at h
    try split_ifs at h
    all_goals first
      | (rename_i ih
         obtain ⟨ha, hl, hc⟩ := ih _ _ h
         refine ⟨ha, ?_, ?_⟩ <;> (try dsimp only at hl hc ⊢) <;> omega)
      | (rename_i ih hx
         obtain ⟨ha, hl, hc⟩ := ih _ _ h
         refine ⟨ha, ?_, ?_⟩ <;> (try dsimp only at hl hc ⊢) <;> omega)
      | (rw [Prod.mk.injEq, Prod.mk.injEq] at h
         obtain ⟨ht, hnc, -⟩ := h
         refine ⟨fun tok htok => ?_, ?_, ?_⟩
         · rw [← ht] at htok
           cases htok
           rfl
         · rw [← hnc]
         · rw [← hnc])
      | simp_all +zetaDelta

lemma lexCharacterDelimited_ok (source : List Char) (cur : Cursor) (delimiter : Char)
    (t : Option Token) (nc : Cursor)
    (h : lexCharacterDelimited source cur delimiter = (t, nc, true)) :
    (∀ tok, t = some tok → tok.loc = cur.loc) ∧ LocLe cur.loc nc.loc := by
  unfold lexCharacterDelimited at h
  cases hd : source.drop cur.pointer with
  | nil => rw [hd] at h; simp at h
  | cons c rest =>
    rw [hd] at h
    dsimp only at h
    split_ifs at h
    all_goals first
      | simp at h
      | (obtain ⟨ha, hl, hc⟩ := lexCharacterDelimitedLoop_ok source cur delimiter _ _ _ _ _ h
         dsimp only at hl hc
         exact ⟨ha, Or.inr ⟨hl.symm, by omega⟩⟩)

lemma lexString_ok (source : List Char) (cur : Cursor) (t : Option Token) (nc : Cursor)
    (h : lexString source cur = (t, nc, true)) :
    (∀ tok, t = some tok → tok.loc = cur.loc) ∧ LocLe cur.loc nc.loc := by
  unfold lexString at h
  exact lexCharacterDelimited_ok source cur _ t nc h

lemma lexIdentifierLoop_ok (source : List Char) (ic : Cursor) :
    ∀ (rest : List Char) (cur : Cursor) (value : List Char) (t : Option Token) (nc : Cursor),
      lexIdentifierLoop source ic rest cur value = (t, nc, true) →
      (∀ tok, t = some tok → tok.loc = ic.loc) ∧
        nc.loc.line = cur.loc.line ∧ cur.loc.col ≤ nc.loc.col := by
  intro rest cur value
  induction rest, cur, value using lexIdentifierLoop.induct source ic with
  | _ =>
    intro t nc h
    rw [lexIdentifierLoop.eq_def] at h
    try dsimp only at h
    try split_ifs at h
    all_goals first
      | (rename_i ih
         obtain ⟨ha, hl, hc⟩ := ih _ _ h
         refine ⟨ha, ?_, ?_⟩ <;> (try dsimp only at hl hc ⊢) <;> omega)
      | (rename_i ih hx
         obtain ⟨ha, hl, hc⟩ := ih _ _ h
         refine ⟨ha, ?_, ?_⟩ <;> (try dsimp only at hl hc ⊢) <;> omega)
      | (rw [Prod.mk.injEq, Prod.mk.injEq] at h
         obtain ⟨ht, hnc, -⟩ := h
         refine ⟨fun tok htok => ?_, ?_, ?_⟩
         · rw [← ht] at htok
           cases htok
           rfl
         · rw [← hnc]
         · rw [← hnc])
      | simp_all +zetaDelta

lemma lexIdentifier_ok (source : List Char) (cur : Cursor) (t : Option Token) (nc : Cursor)
    (h : lexIdentifier source cur = (t, nc, true)) :
    (∀ tok, t = some tok → tok.loc = cur.loc) ∧ LocLe cur.loc nc.loc := by
  unfold lexIdentifier at h
  by_cases hdel : (lexCharacterDelimited source cur '"').2.2
  · rw [if_pos hdel] at h
    exact lexCharacterDelimited_ok source cur _ t nc h
  · rw [if_neg hdel] at h
    cases hd : source.drop cur.pointer with
    | nil => rw [hd] at h; simp at h
    | cons c rest =>
      rw [hd] at h
      dsimp only at h
      split_ifs at h
      all_goals first
        | simp at h
        | (obtain ⟨ha, hl, hc⟩ := lexIdentifierLoop_ok source cur _ _ _ _ _ h
           dsimp only at hl hc
           exact ⟨ha, Or.inr ⟨hl.symm, by omega⟩⟩)

lemma lexKeyword_ok (source : List Char) (cur : Cursor) (t : Option Token) (nc : Cursor)
    (h : lexKeyword source cur = (t, nc, true)) :
    (∀ tok, t = some tok → tok.loc = cur.loc) ∧ LocLe cur.loc nc.loc := by
  unfold lexKeyword at h
  dsimp only at h
  split_ifs at h
  · simp at h
  · rw [Prod.mk.injEq, Prod.mk.injEq] at h
    obtain ⟨ht, hnc, -⟩ := h
    refine ⟨fun tok htok => ?_, ?_⟩
    · rw [← ht] at htok
      cases htok
      rfl
    · rw [← hnc]
      exact Or.inr ⟨rfl, Nat.le_add_right _ _⟩

lemma lexSymbol_ok (source : List Char) (cur : Cursor) (t : Option Token) (nc : Cursor)
    (h : lexSymbol source cur = (t, nc, true)) :
    (∀ tok, t = some tok → tok.loc = cur.loc) ∧ LocLe cur.loc nc.loc := by
  unfold lexSymbol at h
  cases hd : source.drop cur.pointer with
  | nil => rw [hd] at h; simp at h
  | cons c rest =>
    rw [hd] at h
    dsimp only at h
    split_ifs at h
    · rw [Prod.mk.injEq, Prod.mk.injEq] at h
      obtain ⟨ht, hnc, -⟩ := h
      refine ⟨by simp [← ht], ?_⟩
      rw [← hnc]
      exact Or.inl (Nat.lt_succ_self _)
    · rw [Prod.mk.injEq, Prod.mk.injEq] at h
      obtain ⟨ht, hnc, -⟩ := h
      refine ⟨by simp [← ht], ?_⟩
      rw [← hnc]
      exact Or.inr ⟨rfl, Nat.le_succ _⟩
    · simp at h
    · rw [Prod.mk.injEq, Prod.mk.injEq] at h
      obtain ⟨ht, hnc, -⟩ := h
      refine ⟨fun tok htok => ?_, ?_⟩
      · rw [← ht] at htok
        cases htok
        rfl
      · rw [← hnc]
        exact Or.inr ⟨rfl, Nat.le_add_right _ _⟩

end GoSql

namespace GoSql

lemma appendToken_chain (tokens : List Token) (t : Option Token) (curLoc ncLoc : Location)
    (h1 : List.Chain' (fun a b => LocLe a.loc b.loc) tokens)
    (h2 : ∀ tk, tokens.getLast? = some tk → LocLe tk.loc curLoc)
    (ht : ∀ tok, t = some tok → tok.loc = curLoc)
    (hle : LocLe curLoc ncLoc) :
    List.Chain' (fun a b => LocLe a.loc b.loc) (appendToken tokens t) ∧
      (∀ tk, (appendToken tokens t).getLast? = some tk → LocLe tk.loc ncLoc) := by
  cases t with
  | none => exact ⟨h1, fun tk htk => LocLe.trans (h2 tk htk) hle⟩
  | some tok =>
    have htok := ht tok rfl
    have happ : appendToken tokens (some tok) = tokens ++ [tok] := rfl
    rw [happ]
    constructor
    · rw [List.chain'_append]
      refine ⟨h1, List.chain'_singleton _, ?_⟩
      intro x hx y hy
      simp only [List.head?_cons, Option.mem_def, Option.some.injEq] at hy
      rw [← hy, htok]
      exact h2 x (by simpa using hx)
    · intro tk htk
      rw [List.getLast?_concat] at htk
      cases htk
      rw [htok]
      exact hle

lemma lexLoop_chain (source : List Char) :
    ∀ (fuel : Nat) (cur : Cursor) (tokens : List Token) (res : List Token),
      List.Chain' (fun a b => LocLe a.loc b.loc) tokens →
      (∀ tk, tokens.getLast? = some tk → LocLe tk.loc cur.loc) →
      lexLoop source fuel cur tokens = LexResult.ok res →
      List.Chain' (fun a b => LocLe a.loc b.loc) res := by
  intro fuel
  induction fuel with
  | zero =>
    intro cur tokens res h1 h2 hres
    rw [lexLoop] at hres
    split_ifs at hres <;> cases hres <;> exact h1
  | succ fuel ih =>
    intro cur tokens res h1 h2 hres
    rw [lexLoop] at hres
    split_ifs at hres
    case neg =>
      cases hres
      exact h1
    case pos =>
      rcases hK : lexKeyword source cur with ⟨tK, ncK, bK⟩
      rw [hK] at hres
      cases bK with
      | true =>
        obtain ⟨ht, hle⟩ := lexKeyword_ok source cur _ _ hK
        obtain ⟨c1, c2⟩ := appendToken_chain tokens tK cur.loc ncK.loc h1 h2 ht hle
        exact ih ncK _ res c1 c2 hres
      | false =>
        rcases hS : lexSymbol source cur with ⟨tS, ncS, bS⟩
        rw [hS] at hres
        cases bS with
        | true =>
          obtain ⟨ht, hle⟩ := lexSymbol_ok source cur _ _ hS
          obtain ⟨c1, c2⟩ := appendToken_chain tokens tS cur.loc ncS.loc h1 h2 ht hle
          exact ih ncS _ res c1 c2 hres
        | false =>
          rcases hN : lexNumeric source cur with ⟨tN, ncN, bN⟩
          rw [hN] at hres
          cases bN with
          | true =>
            obtain ⟨ht, hle⟩ := lexNumeric_ok source cur _ _ hN
            obtain ⟨c1, c2⟩ := appendToken_chain tokens tN cur.loc ncN.loc h1 h2 ht hle
            exact ih ncN _ res c1 c2 hres
          | false =>
            rcases hT : lexString source cur with ⟨tT, ncT, bT⟩
            rw [hT] at hres
            cases bT with
            | true =>
              obtain ⟨ht, hle⟩ := lexString_ok source cur _ _ hT
              obtain ⟨c1, c2⟩ := appendToken_chain tokens tT cur.loc ncT.loc h1 h2 ht hle
              exact ih ncT _ res c1 c2 hres
            | false =>
              rcases hI : lexIdentifier source cur with ⟨tI, ncI, bI⟩
              rw [hI] at hres
              cases bI with
              | true =>
                obtain ⟨ht, hle⟩ := lexIdentifier_ok source cur _ _ hI
                obtain ⟨c1, c2⟩ := appendToken_chain tokens tI cur.loc ncI.loc h1 h2 ht hle
                exact ih ncI _ res c1 c2 hres
              | false => cases hres

/-- C9: on every successfully lexed source the stamped token locations are
monotonically non-decreasing in output order: the line never decreases, and
the column never decreases between consecutive tokens unless the line has
increased. -/
theorem c9_token_locations_monotone (source : List Char) (tokens : List Token)
    (h : lex source = LexResult.ok tokens) :
    List.Chain' (fun a b => LocLe a.loc b.loc) tokens :=
  lexLoop_chain source _ _ [] tokens List.chain'_nil (fun tk htk => by cases htk) h

/-- Witness for C9 on `select *` newline `from t;`, whose five tokens carry
the locations (0,0), (0,7), (1,0), (1,5), (1,6). -/
theorem c9_token_locations_monotone_witness :
    List.Chain' (fun a b : Token => LocLe a.loc b.loc)
      ([{ value := "select".toList, kind := TokenKind.KeywordKind, loc := { line := 0, col := 0 } },
       { value := "*".toList, kind := TokenKind.SymbolKind, loc := { line := 0, col := 7 } },
       { value := "from".toList, kind := TokenKind.KeywordKind, loc := { line := 1, col := 0 } },
       { value := "t".toList, kind := TokenKind.IdentifierKind, loc := { line := 1, col := 5 } },
       { value := ";".toList, kind := TokenKind.SymbolKind, loc := { line := 1, col := 6 } }] : List Token) :=
  c9_token_locations_monotone ("select *\nfrom t;".toList)
    [{ value := "select".toList, kind := TokenKind.KeywordKind, loc := { line := 0, col := 0 } },
       { value := "*".toList, kind := TokenKind.SymbolKind, loc := { line := 0, col := 7 } },
       { value := "from".toList, kind := TokenKind.KeywordKind, loc := { line := 1, col := 0 } },
       { value := "t".toList, kind := TokenKind.IdentifierKind, loc := { line := 1, col := 5 } },
       { value := ";".toList, kind := TokenKind.SymbolKind, loc := { line := 1, col := 6 } }] (by decide)

end GoSql

namespace GoSql

/-- Modelled from the spec wording for the longest-match engine: an option
matches the accumulated lower-cased buffer `value` when it equals the
truncation of `value` to the option's own length. -/
def MatchedByB (value o : List Char) : Bool := o == value.take o.length

/-- Modelled from the spec wording: an option matches at offset `ptr` of the
source when it equals the lower-case folding of the source prefix (starting
at `ptr`) of the option's own length. -/
def matchesAt (source : List Char) (ptr : Nat) (o : List Char) : Bool :=
  o == ((source.drop ptr).take o.length).map Char.toLower

/-- Modelled from the spec wording: the longest option that matches a prefix
of the source at the cursor offset, or the empty string when none does. -/
def lmSpec (source : List Char) (ptr : Nat) (options : List (List Char)) : List Char :=
  (options.filter (fun o => matchesAt source ptr o)).foldl
    (fun best o => if best.length < o.length then o else best) []

/-- Length of the longest option matching the buffer `value` (0 when none). -/
def maxMatched (value : List Char) : List (List Char) → Nat
  | [] => 0
  | o :: os =>
    if MatchedByB value o then max o.length (maxMatched value os) else maxMatched value os

/-- Largest length in a list of options (0 when empty). -/
def maxLenR : List (List Char) → Nat
  | [] => 0
  | o :: l => max o.length (maxLenR l)

/-- An option is dead for the buffer `value` when the scan can no longer
match it at a later step: it has already been fully compared, or it stopped
sharing the buffer as a prefix. -/
def DeadP (value o : List Char) : Prop :=
  o.length ≤ value.length ∨ ¬ o.take value.length = value

lemma contains_iff (S : List Nat) (i : Nat) : S.contains i = true ↔ i ∈ S :=
  List.elem_iff

lemma matchedByB_iff (value o : List Char) :
    MatchedByB value o = true ↔ o = value.take o.length := by
  simp [MatchedByB]

lemma matchedByB_length_le {value o : List Char} (h : MatchedByB value o = true) :
    o.length ≤ value.length := by
  rw [matchedByB_iff] at h
  have := congrArg List.length h
  rw [List.length_take] at this
  omega

lemma maxMatched_le (value : List Char) (os : List (List Char)) :
    maxMatched value os ≤ value.length := by
  induction os with
  | nil => simp [maxMatched]
  | cons o os ih =>
    simp only [maxMatched]
    split_ifs with h
    · have := matchedByB_length_le h
      omega
    · exact ih

lemma maxMatched_filter (value : List Char) (os : List (List Char)) :
    maxMatched value os = maxLenR (os.filter (fun o => MatchedByB value o)) := by
  induction os with
  | nil => rfl
  | cons o os ih =>
    simp only [maxMatched, List.filter_cons]
    split_ifs with h <;> simp only [maxLenR, ih]

lemma matchedByB_append (value : List Char) (c : Char) (o : List Char) :
    MatchedByB (value ++ [c]) o = true ↔ (MatchedByB value o = true ∨ o = value ++ [c]) := by
  rw [matchedByB_iff, matchedByB_iff]
  have hlen2 : (value ++ [c]).length = value.length + 1 := by simp
  constructor
  · intro h
    rcases Nat.lt_trichotomy o.length (value.length + 1) with hl | hl | hl
    · left
      rwa [List.take_append_of_le_length (by omega)] at h
    · right
      rw [List.take_of_length_le (by omega)] at h
      exact h
    · exfalso
      rw [List.take_of_length_le (by omega)] at h
      have := congrArg List.length h
      omega
  · intro h
    rcases h with h | h
    · have hle : o.length ≤ value.length := by
        have := congrArg List.length h
        rw [List.length_take] at this
        omega
      rw [List.take_append_of_le_length hle]
      exact h
    · rw [h, List.take_of_length_le (by omega)]

lemma matchedByB_self_append (value : List Char) (c : Char) :
    MatchedByB (value ++ [c]) (value ++ [c]) = true := by
  rw [matchedByB_append]
  right
  rfl

lemma not_matchedByB_append_self (value : List Char) (c : Char) :
    ¬ MatchedByB value (value ++ [c]) = true := by
  intro h
  have := matchedByB_length_le h
  simp at this

lemma maxMatched_append (value : List Char) (c : Char) (os : List (List Char)) :
    maxMatched (value ++ [c]) os =
      if (value ++ [c]) ∈ os then max (value.length + 1) (maxMatched value os)
      else maxMatched value os := by
  induction os with
  | nil => simp [maxMatched]
  | cons o os ih =>
    simp only [maxMatched, List.mem_cons]
    by_cases h1 : MatchedByB value o = true
    · have h2 : MatchedByB (value ++ [c]) o = true := by
        rw [matchedByB_append]
        left
        exact h1
      have hne : ¬ value ++ [c] = o := by
        intro he
        have := matchedByB_length_le h1
        rw [← he] at this
        simp at this
      have hol := matchedByB_length_le h1
      rw [if_pos h2, if_pos h1, ih]
      by_cases hmem : (value ++ [c]) ∈ os
      · rw [if_pos hmem, if_pos (Or.inr hmem)]
        omega
      · rw [if_neg hmem, if_neg (by simp [hne, hmem])]
    · by_cases ho : value ++ [c] = o
      · have h2 : MatchedByB (value ++ [c]) o = true := by
          rw [matchedByB_append]
          right
          exact ho.symm
        have holen : o.length = value.length + 1 := by
          rw [← ho]
          simp
        rw [if_pos h2, if_neg h1, ih, if_pos (Or.inl ho)]
        by_cases hmem : (value ++ [c]) ∈ os
        · rw [if_pos hmem]
          omega
        · rw [if_neg hmem]
          omega
      · have h2 : ¬ MatchedByB (value ++ [c]) o = true := by
          rw [matchedByB_append]
          push_neg
          exact ⟨h1, fun he => ho he.symm⟩
        rw [if_neg h2, if_neg h1, ih]
        by_cases hmem : (value ++ [c]) ∈ os
        · rw [if_pos hmem, if_pos (Or.inr hmem)]
        · rw [if_neg hmem, if_neg (by simp [ho, hmem])]

lemma DeadP_mono (value : List Char) (c : Char) (o : List Char) (h : DeadP value o) :
    DeadP (value ++ [c]) o := by
  rcases h with h | h
  · left
    simp
    omega
  · right
    intro he
    apply h
    have := congrArg (List.take value.length) he
    rw [List.take_take, Nat.min_def] at this
    simp only [List.length_append, List.length_singleton] at this
    rw [if_pos (by omega)] at this
    rwa [List.take_append_of_le_length (Nat.le_refl _), List.take_length] at this

lemma not_DeadP_self_append (value : List Char) (c : Char) :
    ¬ DeadP value (value ++ [c]) := by
  intro h
  rcases h with h | h
  · simp at h
  · apply h
    rw [List.take_append_of_le_length (Nat.le_refl _), List.take_length]

lemma mem_of_nodup_length {n : Nat} {S : List Nat} (hnd : S.Nodup)
    (hbd : ∀ x ∈ S, x < n) (hlen : S.length = n) : ∀ i, i < n → i ∈ S := by
  intro i hi
  have hsub : S.toFinset ⊆ Finset.range n := by
    intro x hx
    rw [List.mem_toFinset] at hx
    exact Finset.mem_range.mpr (hbd x hx)
  have hcard : (Finset.range n).card ≤ S.toFinset.card := by
    rw [List.toFinset_card_of_nodup hnd, hlen, Finset.card_range]
  have heq := Finset.eq_of_subset_of_card_le hsub hcard
  rw [← List.mem_toFinset, heq]
  exact Finset.mem_range.mpr hi

lemma exists_getD_iff_mem (os : List (List Char)) (v : List Char) :
    (∃ k, k < os.length ∧ os.getD k [] = v) ↔ v ∈ os := by
  constructor
  · rintro ⟨k, hk, hkv⟩
    rw [List.getD_eq_getElem _ _ hk] at hkv
    exact hkv ▸ List.getElem_mem hk
  · intro h
    obtain ⟨k, hk, hkv⟩ := List.mem_iff_getElem.mp h
    exact ⟨k, hk, by rw [List.getD_eq_getElem _ _ hk]; exact hkv⟩

lemma maxMatched_dead_append (value suffix : List Char) (os : List (List Char))
    (hdead : ∀ o ∈ os, DeadP value o) :
    maxMatched (value ++ suffix) os = maxMatched value os := by
  induction os with
  | nil => rfl
  | cons o os ih =>
    have hdo := hdead o (by simp)
    have hmono : MatchedByB (value ++ suffix) o = MatchedByB value o := by
      rcases le_or_lt o.length value.length with hle | hlt
      · simp only [MatchedByB, List.take_append_of_le_length hle]
      · have h1 : ¬ MatchedByB value o = true := fun hx => by
          have := matchedByB_length_le hx
          omega
        have h2 : ¬ MatchedByB (value ++ suffix) o = true := by
          intro hx
          rw [matchedByB_iff] at hx
          have htake : o.take value.length = value := by
            have := congrArg (List.take value.length) hx
            rw [List.take_take, Nat.min_def, if_pos (by omega),
              List.take_append_of_le_length (Nat.le_refl _), List.take_length] at this
            exact this
          rcases hdo with hd | hd
          · omega
          · exact hd htake
        rw [Bool.eq_false_iff.mpr h2, Bool.eq_false_iff.mpr h1]
    simp only [maxMatched, hmono]
    split_ifs with h <;> rw [ih (fun o2 ho2 => hdead o2 (by simp [ho2]))]

lemma foldl_pick_take (low : List Char) :
    ∀ (l : List (List Char)), (∀ o ∈ l, MatchedByB low o = true) →
    ∀ m, m ≤ low.length →
      l.foldl (fun best o => if best.length < o.length then o else best) (low.take m) =
        low.take (max m (maxLenR l)) := by
  intro l
  induction l with
  | nil =>
    intro _ m hm
    simp [maxLenR]
  | cons o l ih =>
    intro hall m hm
    have ho := hall o (by simp)
    have hoe := (matchedByB_iff _ _).mp ho
    have hol : o.length ≤ low.length := matchedByB_length_le ho
    have hlen : (low.take m).length = m := by
      rw [List.length_take]
      omega
    have hstep : (if (low.take m).length < o.length then o else low.take m) =
        low.take (max m o.length) := by
      rw [hlen]
      by_cases hc : m < o.length
      · rw [if_pos hc]
        have hmax : max m o.length = o.length := by omega
        rw [hmax]
        exact hoe
      · rw [if_neg hc]
        have hmax : max m o.length = m := by omega
        rw [hmax]
    rw [List.foldl_cons, hstep, ih (fun x hx => hall x (by simp [hx])) _ (by omega)]
    have harith : max (max m o.length) (maxLenR l) = max m (maxLenR (o :: l)) := by
      simp only [maxLenR]
      omega
    rw [harith]

lemma lmSpec_eq_take (source : List Char) (ptr : Nat) (os : List (List Char)) :
    lmSpec source ptr os =
      ((source.drop ptr).map Char.toLower).take
        (maxMatched ((source.drop ptr).map Char.toLower) os) := by
  unfold lmSpec
  have hfe : os.filter (fun o => matchesAt source ptr o) =
      os.filter (fun o => MatchedByB ((source.drop ptr).map Char.toLower) o) := by
    apply List.filter_congr
    intro o _
    simp only [matchesAt, MatchedByB, List.map_take]
  rw [hfe, maxMatched_filter]
  have h0 : ([] : List Char) = ((source.drop ptr).map Char.toLower).take 0 := rfl
  rw [h0, foldl_pick_take _ _ (fun o ho => List.of_mem_filter ho) 0 (Nat.zero_le _),
    Nat.zero_max]

end GoSql

namespace GoSql

lemma lmInner_spec (os : List (List Char)) (value : List Char) (c0 : Char)
    (hopt : ∀ o ∈ os, o ≠ [] ∧ o.length ≤ os.length) :
    ∀ (tail : List (List Char)) (j : Nat), tail = os.drop j →
    ∀ (S : List Nat) (bestOld best : List Char),
      S.Nodup → (∀ x ∈ S, x < os.length) →
      (∀ i, i < os.length →
        ((i ∈ S) ↔ (if i < j then DeadP (value ++ [c0]) (os.getD i [])
                    else DeadP value (os.getD i [])))) →
      ((∃ k, k < j ∧ os.getD k [] = value ++ [c0]) → best = value ++ [c0]) →
      ((¬ ∃ k, k < j ∧ os.getD k [] = value ++ [c0]) → best = bestOld) →
      bestOld.length ≤ value.length →
      (lmInner (value ++ [c0]) os.length (tail.enumFrom j) S best).1.Nodup ∧
      (∀ x ∈ (lmInner (value ++ [c0]) os.length (tail.enumFrom j) S best).1,
        x < os.length) ∧
      (∀ i, i < os.length →
        ((i ∈ (lmInner (value ++ [c0]) os.length (tail.enumFrom j) S best).1) ↔
          DeadP (value ++ [c0]) (os.getD i []))) ∧
      ((∃ k, k < os.length ∧ os.getD k [] = value ++ [c0]) →
        (lmInner (value ++ [c0]) os.length (tail.enumFrom j) S best).2 = value ++ [c0]) ∧
      ((¬ ∃ k, k < os.length ∧ os.getD k [] = value ++ [c0]) →
        (lmInner (value ++ [c0]) os.length (tail.enumFrom j) S best).2 = bestOld) := by
  intro tail
  induction tail with
  | nil =>
    intro j hj S bestOld best hnd hbd hmem hbT hbF hbo
    have hnj : os.length ≤ j := by
      rw [← List.drop_eq_nil_iff_le, ← hj]
    refine ⟨hnd, hbd, ?_, ?_, ?_⟩
    · intro i hi
      have := hmem i hi
      rwa [if_pos (by omega)] at this
    · rintro ⟨k, hk, hkv⟩
      exact hbT ⟨k, by omega, hkv⟩
    · intro hn
      apply hbF
      rintro ⟨k, hk, hkv⟩
      apply hn
      by_cases hkn : k < os.length
      · exact ⟨k, hkn, hkv⟩
      · rw [List.getD_eq_default _ _ (by omega)] at hkv
        exact absurd hkv.symm (by simp)
  | cons o tail2 ih =>
    intro j hj S bestOld best hnd hbd hmem hbT hbF hbo
    have hjlt : j < os.length := by
      by_contra hge
      have hnil : os.drop j = [] := List.drop_eq_nil_iff_le.mpr (by omega)
      rw [hnil] at hj
      exact absurd hj (by simp)
    have hdec := List.drop_eq_getElem_cons hjlt
    have hcons := hj.trans hdec
    have ho_eq : o = os[j] := by injection hcons
    have htail2 : tail2 = os.drop (j + 1) := by injection hcons
    have hgd : os.getD j [] = o := by
      rw [List.getD_eq_getElem _ _ hjlt, ← ho_eq]
    have hoin : o ∈ os := ho_eq ▸ List.getElem_mem hjlt
    obtain ⟨hone, holen⟩ := hopt o hoin
    rw [List.enumFrom_cons]
    simp only [lmInner]
    by_cases hjS : j ∈ S
    · rw [if_pos ((contains_iff S j).mpr hjS)]
      have hdj : DeadP value o := by
        have := (hmem j hjlt).mp hjS
        rwa [if_neg (by omega), hgd] at this
      refine ih (j + 1) htail2 S bestOld best hnd hbd ?_ ?_ ?_ hbo
      · intro i hi
        rcases Nat.lt_trichotomy i j with hij | hij | hij
        · have := hmem i hi
          rw [if_pos (by omega)] at this
          rw [if_pos (by omega)]
          exact this
        · subst hij
          rw [if_pos (by omega), hgd]
          exact ⟨fun _ => DeadP_mono value c0 o hdj, fun _ => hjS⟩
        · have := hmem i hi
          rw [if_neg (by omega)] at this
          rw [if_neg (by omega)]
          exact this
      · rintro ⟨k, hk, hkv⟩
        by_cases hkj : k < j
        · exact hbT ⟨k, hkj, hkv⟩
        · have hkj2 : k = j := by omega
          subst hkj2
          rw [hgd] at hkv
          exact absurd (hkv ▸ hdj) (not_DeadP_self_append value c0)
      · intro hn
        apply hbF
        rintro ⟨k, hk, hkv⟩
        exact hn ⟨k, by omega, hkv⟩
    · rw [if_neg (by rw [contains_iff]; exact hjS)]
      have hndj : ¬ DeadP value o := by
        intro hd
        exact hjS ((hmem j hjlt).mpr (by rw [if_neg (by omega), hgd]; exact hd))
      rw [DeadP, not_or, not_not] at hndj
      obtain ⟨hlen1, htake1⟩ := hndj
      rw [Nat.not_le] at hlen1
      have hndS : (S ++ [j]).Nodup := by
        rw [List.nodup_append]
        refine ⟨hnd, List.nodup_singleton _, ?_⟩
        intro a ha hb
        rw [List.mem_singleton] at hb
        subst hb
        exact hjS ha
      have hbdS : ∀ x ∈ S ++ [j], x < os.length := by
        intro x hx
        rw [List.mem_append, List.mem_singleton] at hx
        rcases hx with hx | hx
        · exact hbd x hx
        · subst hx
          exact hjlt
      by_cases hov : o = value ++ [c0]
      · rw [if_pos hov]
        have hbest2 : (if best.length < o.length then o else best) = value ++ [c0] := by
          by_cases hex : ∃ k, k < j ∧ os.getD k [] = value ++ [c0]
          · rw [hbT hex]
            split_ifs
            · exact hov
            · rfl
          · rw [hbF hex, if_pos (by rw [hov]; simp; omega)]
            exact hov
        rw [hbest2]
        have hT2 : (∃ k, k < j + 1 ∧ os.getD k [] = value ++ [c0]) → value ++ [c0] = value ++ [c0] :=
          fun _ => rfl
        refine ih (j + 1) htail2 (S ++ [j]) bestOld (value ++ [c0]) hndS hbdS ?_ hT2 ?_ hbo
        · intro i hi
          rw [List.mem_append, List.mem_singleton]
          rcases Nat.lt_trichotomy i j with hij | hij | hij
          · have := hmem i hi
            rw [if_pos (by omega)] at this
            rw [if_pos (by omega)]
            constructor
            · rintro (hx | hx)
              · exact this.mp hx
              · omega
            · intro hd
              exact Or.inl (this.mpr hd)
          · subst hij
            rw [if_pos (by omega), hgd, hov]
            refine ⟨fun _ => Or.inl (by simp), fun _ => Or.inr rfl⟩
          · have := hmem i hi
            rw [if_neg (by omega)] at this
            rw [if_neg (by omega)]
            constructor
            · rintro (hx | hx)
              · exact this.mp hx
              · omega
            · intro hd
              exact Or.inl (this.mpr hd)
        · intro hn
          exact absurd ⟨j, by omega, by rw [hgd]; exact hov⟩ hn
      · rw [if_neg hov]
        have hv2len : (value ++ [c0]).length = value.length + 1 := by simp
        by_cases hpre : (value ++ [c0]) = o.take (value ++ [c0]).length
        · rw [if_neg (by push_neg; exact ⟨by rw [hv2len]; omega, hpre⟩)]
          refine ih (j + 1) htail2 S bestOld best hnd hbd ?_ ?_ ?_ hbo
          · intro i hi
            rcases Nat.lt_trichotomy i j with hij | hij | hij
            · have := hmem i hi
              rw [if_pos (by omega)] at this
              rw [if_pos (by omega)]
              exact this
            · subst hij
              rw [if_pos (by omega), hgd]
              constructor
              · intro hx
                exact absurd hx hjS
              · intro hd
                exfalso
                rcases hd with hd | hd
                · have hol2 : o.length = value.length + 1 := by
                    rw [hv2len] at hd
                    omega
                  apply hov
                  rw [hpre, List.take_of_length_le (by omega)]
                · exact hd hpre.symm
            · have := hmem i hi
              rw [if_neg (by omega)] at this
              rw [if_neg (by omega)]
              exact this
          · rintro ⟨k, hk, hkv⟩
            by_cases hkj : k < j
            · exact hbT ⟨k, hkj, hkv⟩
            · have hkj2 : k = j := by omega
              subst hkj2
              rw [hgd] at hkv
              exact absurd hkv hov
          · intro hn
            apply hbF
            rintro ⟨k, hk, hkv⟩
            exact hn ⟨k, by omega, hkv⟩
        · rw [if_pos (Or.inr hpre)]
          refine ih (j + 1) htail2 (S ++ [j]) bestOld best hndS hbdS ?_ ?_ ?_ hbo
          · intro i hi
            rw [List.mem_append, List.mem_singleton]
            rcases Nat.lt_trichotomy i j with hij | hij | hij
            · have := hmem i hi
              rw [if_pos (by omega)] at this
              rw [if_pos (by omega)]
              constructor
              · rintro (hx | hx)
                · exact this.mp hx
                · omega
              · intro hd
                exact Or.inl (this.mpr hd)
            · subst hij
              rw [if_pos (by omega), hgd]
              refine ⟨fun _ => ?_, fun _ => Or.inr rfl⟩
              right
              intro hc
              exact hpre hc.symm
            · have := hmem i hi
              rw [if_neg (by omega)] at this
              rw [if_neg (by omega)]
              constructor
              · rintro (hx | hx)
                · exact this.mp hx
                · omega
              · intro hd
                exact Or.inl (this.mpr hd)
          · rintro ⟨k, hk, hkv⟩
            by_cases hkj : k < j
            · exact hbT ⟨k, hkj, hkv⟩
            · have hkj2 : k = j := by omega
              subst hkj2
              rw [hgd] at hkv
              exact absurd hkv hov
          · intro hn
            apply hbF
            rintro ⟨k, hk, hkv⟩
            exact hn ⟨k, by omega, hkv⟩

end GoSql

namespace GoSql

lemma lmLoop_spec (os : List (List Char)) (hopt : ∀ o ∈ os, o ≠ [] ∧ o.length ≤ os.length) :
    ∀ (rest value : List Char) (S : List Nat) (best : List Char),
      S.Nodup → (∀ x ∈ S, x < os.length) →
      (∀ i, i < os.length → ((i ∈ S) ↔ DeadP value (os.getD i []))) →
      best = value.take (maxMatched value os) →
      lmLoop os rest value S best =
        (value ++ rest.map Char.toLower).take
          (maxMatched (value ++ rest.map Char.toLower) os) := by
  intro rest
  induction rest with
  | nil =>
    intro value S best hnd hbd hmem hbest
    simp only [lmLoop, List.map_nil, List.append_nil]
    exact hbest
  | cons c rest2 ih =>
    intro value S best hnd hbd hmem hbest
    simp only [lmLoop]
    rw [show os.enum = os.enumFrom 0 from rfl]
    have hmem0 : ∀ i, i < os.length →
        ((i ∈ S) ↔ (if i < 0 then DeadP (value ++ [c.toLower]) (os.getD i [])
                    else DeadP value (os.getD i []))) := by
      intro i hi
      rw [if_neg (by omega)]
      exact hmem i hi
    have hbo : best.length ≤ value.length := by
      rw [hbest, List.length_take]
      omega
    obtain ⟨nd2, bd2, mem2, cT, cF⟩ :=
      lmInner_spec os value c.toLower hopt os 0 (List.drop_zero os).symm S best best hnd hbd
        hmem0 (fun hex => absurd hex.choose_spec.1 (Nat.not_lt_zero _)) (fun _ => rfl) hbo
    have hM1le := maxMatched_le value os
    have hv2len : (value ++ [c.toLower]).length = value.length + 1 := by simp
    have hbest2 : (lmInner (value ++ [c.toLower]) os.length (os.enumFrom 0) S best).2 =
        (value ++ [c.toLower]).take (maxMatched (value ++ [c.toLower]) os) := by
      rw [maxMatched_append value c.toLower os]
      by_cases hex : ∃ k, k < os.length ∧ os.getD k [] = value ++ [c.toLower]
      · have hmemv : (value ++ [c.toLower]) ∈ os := (exists_getD_iff_mem os _).mp hex
        rw [cT hex, if_pos hmemv]
        have hmx : max (value.length + 1) (maxMatched value os) = value.length + 1 := by omega
        rw [hmx]
        exact (List.take_of_length_le (by omega)).symm
      · have hmemv : ¬ (value ++ [c.toLower]) ∈ os :=
          fun hm => hex ((exists_getD_iff_mem os _).mpr hm)
        rw [cF hex, if_neg hmemv, hbest]
        exact (List.take_append_of_le_length hM1le).symm
    have hfull : value ++ (c :: rest2).map Char.toLower =
        (value ++ [c.toLower]) ++ rest2.map Char.toLower := by
      simp
    by_cases hful :
        (lmInner (value ++ [c.toLower]) os.length (os.enumFrom 0) S best).1.length = os.length
    · rw [if_pos hful, hbest2, hfull]
      have hall : ∀ o2 ∈ os, DeadP (value ++ [c.toLower]) o2 := by
        intro o2 ho2
        obtain ⟨k, hk, hkv⟩ := List.mem_iff_getElem.mp ho2
        have hkmem := mem_of_nodup_length nd2 bd2 hful k hk
        have := (mem2 k hk).mp hkmem
        rwa [List.getD_eq_getElem _ _ hk, hkv] at this
      rw [maxMatched_dead_append _ (rest2.map Char.toLower) os hall]
      exact (List.take_append_of_le_length (maxMatched_le _ os)).symm
    · rw [if_neg hful]
      rw [ih (value ++ [c.toLower]) _ _ nd2 bd2 mem2 hbest2, hfull]

/-- C5 counterexample: with the single option `abcdef` and the source
`abcdef`, the option equals (case-insensitively) the whole source prefix,
yet `longestMatch` returns the empty result: its `tooLong` guard compares
the buffer length against the number of options (1) instead of the option
length, eliminating the option after two characters. -/
theorem c5_longest_match_counterexample :
    longestMatch ("abcdef".toList) { pointer := 0, loc := { line := 0, col := 0 } }
      ["abcdef".toList] = [] ∧
    matchesAt ("abcdef".toList) 0 ("abcdef".toList) = true ∧
    ("abcdef".toList : List Char) ≠ [] := by
  refine ⟨by decide, by decide, by decide⟩

/-- C5 (amended): for every source, cursor and option list whose options are
nonempty, lowercase, and each no longer than the number of options,
`longestMatch` returns the longest option that case-insensitively equals a
prefix of the source starting at the cursor, or the empty string when no
option matches (`lmSpec` is that specification, written from the spec's
words). -/
theorem c5_longest_match_amended (source : List Char) (ic : Cursor)
    (options : List (List Char))
    (h : ∀ o ∈ options, o ≠ [] ∧ o.map Char.toLower = o ∧ o.length ≤ options.length) :
    longestMatch source ic options = lmSpec source ic.pointer options := by
  have hopt : ∀ o ∈ options, o ≠ [] ∧ o.length ≤ options.length :=
    fun o ho => ⟨(h o ho).1, (h o ho).2.2⟩
  unfold longestMatch
  have hmem0 : ∀ i, i < options.length →
      ((i ∈ ([] : List Nat)) ↔ DeadP [] (options.getD i [])) := by
    intro i hi
    simp only [List.not_mem_nil, false_iff]
    intro hd
    have hi2 : options.getD i [] ∈ options := by
      rw [List.getD_eq_getElem _ _ hi]
      exact List.getElem_mem hi
    rcases hd with hd | hd
    · apply (hopt _ hi2).1
      have hz : (options.getD i []).length = 0 := by
        simpa using hd
      exact List.length_eq_zero.mp hz
    · apply hd
      simp
  rw [lmLoop_spec options hopt (source.drop ic.pointer) [] [] [] List.nodup_nil
    (by intro x hx; simp at hx) hmem0 (by simp)]
  rw [lmSpec_eq_take]
  simp only [List.nil_append]

/-- Witness for the amended C5 on the keyword option set: with the source
`into` it returns `into`, not `int`, matching the specification function. -/
theorem c5_longest_match_amended_witness :
    longestMatch ("into".toList) { pointer := 0, loc := { line := 0, col := 0 } }
      keywordOptions = lmSpec ("into".toList) 0 keywordOptions ∧
    lmSpec ("into".toList) 0 keywordOptions = "into".toList :=
  ⟨c5_longest_match_amended ("into".toList) { pointer := 0, loc := { line := 0, col := 0 } }
      keywordOptions (by decide), by decide⟩

end GoSql
